import Mathlib

/-!
Shallow embedding of the query-safety and access-authorization core of the
gbq-mcp server (src/services/query_validator.py, src/services/access_control.py,
src/services/configuration.py, src/server.py), together with theorems settling
the specification claims about it.

Strings are modelled as Lean `String`/`List Char`; the ASCII fragments of the
Python string operations (`upper`, `lower`, `strip`, the regex substitutions)
are embedded as executable functions on `List Char`.
-/

/-- The single-quote character (written numerically). -/
def squote : Char := Char.ofNat 39

/-- The double-quote character (written numerically). -/
def dquote : Char := Char.ofNat 34

/-- The backtick character (written numerically). -/
def btick : Char := Char.ofNat 96

/-- One-character string holding a single quote, used to build error messages. -/
def squoteStr : String := String.mk [squote]

/-- Python whitespace on ASCII text: space, tab, newline, carriage return, vertical tab, form feed. -/
def isPySpace (c : Char) : Bool :=
  c = ' ' || c = '\t' || c = '\n' || c = '\r' || c = '\x0b' || c = '\x0c'

/-- Python upper-casing of one ASCII character. -/
def upperChar (c : Char) : Char :=
  if 97 ≤ c.toNat ∧ c.toNat ≤ 122 then Char.ofNat (c.toNat - 32) else c

/-- Python lower-casing of one ASCII character. -/
def lowerChar (c : Char) : Char :=
  if 65 ≤ c.toNat ∧ c.toNat ≤ 90 then Char.ofNat (c.toNat + 32) else c

/-- Python upper-casing on ASCII text. -/
def pyUpper (s : String) : String := String.mk (s.data.map upperChar)

/-- Python lower-casing on ASCII text. -/
def pyLower (s : String) : String := String.mk (s.data.map lowerChar)

/-- Python strip of surrounding whitespace, on a character list. -/
def pyStrip (l : List Char) : List Char :=
  ((l.dropWhile isPySpace).reverse.dropWhile isPySpace).reverse

/-- Scan for the regex substitution collapsing whitespace runs: the flag records
whether the scanner is inside a run already replaced by one space. -/
def collapseWsAux : Bool → List Char → List Char
  | _, [] => []
  | inRun, c :: rest =>
    if isPySpace c then
      if inRun then collapseWsAux true rest else ' ' :: collapseWsAux true rest
    else c :: collapseWsAux false rest

/-- Embedding of the regex substitution collapsing every whitespace run to one space. -/
def collapseWs (l : List Char) : List Char := collapseWsAux false l

/-- Scan for the first closing star-slash of a block comment; return the suffix after it. -/
def findBlockClose : List Char → Option (List Char)
  | [] => none
  | [_] => none
  | c :: d :: rest =>
    if c = '*' ∧ d = '/' then some rest else findBlockClose (d :: rest)

theorem findBlockClose_length :
    ∀ l r, findBlockClose l = some r → r.length < l.length := by
  intro l
  induction l with
  | nil => intro r h; simp [findBlockClose] at h
  | cons c rest ih =>
    intro r h
    cases rest with
    | nil => simp [findBlockClose] at h
    | cons d rest2 =>
      rw [findBlockClose] at h
      split at h
      · injection h with h
        subst h
        simp only [List.length_cons]
        omega
      · have := ih r h
        simp only [List.length_cons] at this ⊢
        omega

/-- Scan for the regex substitution removing non-greedy block comments; the fuel is
an upper bound on the scanned length so the recursion is structural (every call site
supplies enough fuel, so the fuel-exhausted branch is never reached). -/
def strip_block_aux : Nat → List Char → List Char
  | _, [] => []
  | 0, l => l
  | fuel + 1, c :: rest =>
    match rest with
    | [] => [c]
    | d :: rest2 =>
      if c = '/' ∧ d = '*' then
        match findBlockClose rest2 with
        | some rest3 => ' ' :: strip_block_aux fuel rest3
        | none => c :: strip_block_aux fuel (d :: rest2)
      else c :: strip_block_aux fuel (d :: rest2)

/-- Embedding of the regex substitution removing non-greedy block comments. -/
def strip_block_comments (l : List Char) : List Char := strip_block_aux l.length l

/-- Scan for the regex substitution removing line comments (two dashes up to a
newline), fueled like strip underscore block underscore aux. -/
def strip_line_aux : Nat → List Char → List Char
  | _, [] => []
  | 0, l => l
  | fuel + 1, c :: rest =>
    match rest with
    | [] => [c]
    | d :: rest2 =>
      if c = '-' ∧ d = '-' then
        ' ' :: strip_line_aux fuel (rest2.dropWhile (fun e => e ≠ '\n'))
      else c :: strip_line_aux fuel (d :: rest2)

/-- Embedding of the regex substitution removing line comments. -/
def strip_line_comments (l : List Char) : List Char := strip_line_aux l.length l

/-- Scan the text after an opening quote for the closing quote of the quoted-literal
regex (doubled quotes escape); returns the suffix after the match, mirroring the
greedy-with-backtracking behaviour of the regex engine. -/
def close_quoted (q : Char) : List Char → Option (List Char)
  | [] => none
  | c :: rest =>
    if c = q then
      match rest with
      | [] => some []
      | c2 :: rest2 =>
        if c2 = q then
          match close_quoted q rest2 with
          | some r => some r
          | none => some (c2 :: rest2)
        else some (c2 :: rest2)
    else close_quoted q rest

theorem close_quoted_length {q : Char} : ∀ l r, close_quoted q l = some r → r.length < l.length
  | [], r, h => by simp [close_quoted] at h
  | [c], r, h => by
    by_cases hc : c = q
    · simp [close_quoted, hc] at h
      subst h
      simp
    · simp [close_quoted, hc] at h
  | c :: c2 :: rest2, r, h => by
    by_cases hc : c = q
    · by_cases hc2 : c2 = q
      · rcases hr : close_quoted q rest2 with _ | r2
        · simp [close_quoted, hc, hc2, hr] at h
          subst h
          simp
        · simp [close_quoted, hc, hc2, hr] at h
          subst h
          have := close_quoted_length rest2 r2 hr
          simp only [List.length_cons]
          omega
      · simp [close_quoted, hc, hc2] at h
        subst h
        simp
    · have h2 : close_quoted q (c2 :: rest2) = some r := by
        simpa [close_quoted, hc] using h
      have := close_quoted_length (c2 :: rest2) r h2
      simp only [List.length_cons] at this ⊢
      omega
termination_by l => l.length
decreasing_by
  · simp only [List.length_cons]; omega
  · simp only [List.length_cons]; omega

/-- Scan for the regex substitution replacing quoted literals (with doubled-quote
escapes) by a single space, fueled like strip underscore block underscore aux. -/
def strip_quoted_aux (q : Char) : Nat → List Char → List Char
  | _, [] => []
  | 0, l => l
  | fuel + 1, c :: rest =>
    if c = q then
      match close_quoted q rest with
      | some r => ' ' :: strip_quoted_aux q fuel r
      | none => c :: strip_quoted_aux q fuel rest
    else c :: strip_quoted_aux q fuel rest

/-- Embedding of the regex substitution replacing quoted literals by a space. -/
def strip_quoted (q : Char) (l : List Char) : List Char := strip_quoted_aux q l.length l

/-- Embedding of SelectOnlyValidator normalize underscore query: collapse whitespace on
the stripped query, remove block comments, remove line comments, remove single-quoted
then double-quoted literals, and strip again. -/
def normalize_query (query : String) : String :=
  let n1 := collapseWs (pyStrip query.data)
  let n2 := strip_block_comments n1
  let n3 := strip_line_comments n2
  let n4 := strip_quoted squote n3
  let n5 := strip_quoted dquote n4
  String.mk (pyStrip n5)

/-- Result of one safety check, mirroring the ValidationResult dataclass. -/
structure ValidationResult where
  is_valid : Bool
  error_message : String := ""
deriving DecidableEq, Repr

/-- Regex match of the anchored pattern SELECT followed by one whitespace character. -/
def matchesSelectStart : List Char → Bool
  | 'S' :: 'E' :: 'L' :: 'E' :: 'C' :: 'T' :: c :: _ => isPySpace c
  | _ => false

/-- Error message of the select-only validator. -/
def selectOnlyMessage : String :=
  "Only SELECT queries are allowed. Query must start with SELECT."

/-- Embedding of SelectOnlyValidator.validate. -/
def select_only_validate (query : String) : ValidationResult :=
  let query_upper := pyUpper (normalize_query query)
  if matchesSelectStart query_upper.data then { is_valid := true }
  else { is_valid := false, error_message := selectOnlyMessage }

/-- The fixed deny-list of forbidden keywords, in source order. -/
def FORBIDDEN_KEYWORDS : List String :=
  ["DELETE", "UPDATE", "INSERT", "CREATE", "DROP", "ALTER",
   "MERGE", "TRUNCATE", "REPLACE", "GRANT", "REVOKE"]

/-- Python regex word character, ASCII fragment: letters, digits, underscore. -/
def isWordChar (c : Char) : Bool :=
  (48 ≤ c.toNat && c.toNat ≤ 57) || (65 ≤ c.toNat && c.toNat ≤ 90) ||
    (97 ≤ c.toNat && c.toNat ≤ 122) || c = '_'

/-- A word boundary holds before the match when there is no previous character or the
previous character is not a word character. -/
def wordBoundary : Option Char → Bool
  | none => true
  | some c => !isWordChar c

/-- A word boundary holds after the match when the remaining text is empty or starts
with a non-word character. -/
def wordEndsOk : List Char → Bool
  | [] => true
  | c :: _ => !isWordChar c

/-- The word-boundary keyword pattern matches at the current position. -/
def matchWordHere (kw : List Char) (prev : Option Char) (s : List Char) : Bool :=
  wordBoundary prev && kw.isPrefixOf s && wordEndsOk (s.drop kw.length)

/-- Regex search for a keyword between word boundaries, scanning every position while
tracking the previous character. -/
def search_word_from (kw : List Char) : Option Char → List Char → Bool
  | prev, [] => matchWordHere kw prev []
  | prev, c :: rest => matchWordHere kw prev (c :: rest) || search_word_from kw (some c) rest

/-- Embedding of the regex search for a keyword between word boundaries. -/
def search_word (s kw : List Char) : Bool := search_word_from kw none s

/-- Error message of the forbidden-keyword validator for one keyword. -/
def forbiddenMessage (kw : String) : String :=
  "Forbidden keyword " ++ squoteStr ++ kw ++ squoteStr ++
    " detected. Only SELECT queries are allowed."

/-- Embedding of ForbiddenKeywordValidator.validate with the default deny-list. -/
def forbidden_keyword_validate (query : String) : ValidationResult :=
  match FORBIDDEN_KEYWORDS.find?
      (fun kw => search_word (pyUpper (normalize_query query)).data kw.data) with
  | some kw => { is_valid := false, error_message := forbiddenMessage kw }
  | none => { is_valid := true }

/-- Python rstrip of semicolons, on a character list. -/
def rstripSemi (l : List Char) : List Char :=
  (l.reverse.dropWhile (fun c => c = ';')).reverse

/-- Error message of the multi-statement validator. -/
def multiMessage : String :=
  "Multiple statements not allowed. Only single SELECT queries permitted."

/-- Embedding of MultiStatementValidator.validate. -/
def multi_statement_validate (query : String) : ValidationResult :=
  let normalized := normalize_query query
  if (rstripSemi normalized.data).contains ';' then
    { is_valid := false, error_message := multiMessage }
  else { is_valid := true }

/-- Embedding of CompositeQueryValidator.validate: run validators in sequence and
return the first failure. -/
def runValidators : List (String → ValidationResult) → String → ValidationResult
  | [], _ => { is_valid := true }
  | v :: vs, q =>
    let result := v q
    if result.is_valid then runValidators vs q else result

/-- The default composite validator pipeline, in source order. -/
def validate_query (query : String) : ValidationResult :=
  runValidators [select_only_validate, forbidden_keyword_validate, multi_statement_validate]
    query

/-- Embedding of QueryValidatorService.validate_query_safety. -/
def validate_query_safety (query : String) : Bool × String :=
  let result := validate_query query
  (result.is_valid, result.error_message)

/-- Embedding of QueryValidatorService.validate_or_raise: a raised ValueError is
modelled as the error case of Except. -/
def validate_or_raise (query : String) : Except String Unit :=
  let p := validate_query_safety query
  if p.1 then Except.ok ()
  else Except.error ("Query validation failed: " ++ p.2)

/-- One item of a glob character class. -/
inductive GlobItem where
  | one (c : Char)
  | range (a b : Char)
deriving DecidableEq, Repr

/-- One token of a compiled glob pattern. -/
inductive GlobTok where
  | star
  | anyOne
  | lit (c : Char)
  | cls (neg : Bool) (items : List GlobItem)
deriving DecidableEq, Repr

/-- Take characters up to the closing bracket of a glob class. -/
def takeToBracket : List Char → Option (List Char × List Char)
  | [] => none
  | c :: rest =>
    if c = ']' then some ([], rest)
    else
      match takeToBracket rest with
      | some (b, r) => some (c :: b, r)
      | none => none

theorem takeToBracket_length :
    ∀ l b r, takeToBracket l = some (b, r) → r.length < l.length := by
  intro l
  induction l with
  | nil => intro b r h; simp [takeToBracket] at h
  | cons c rest ih =>
    intro b r h
    rw [takeToBracket] at h
    split at h
    · simp at h
      obtain ⟨h1, h2⟩ := h
      subst h2
      simp
    · split at h
      · rename_i b2 r2 hrec
        simp at h
        obtain ⟨h1, h2⟩ := h
        subst h2
        have := ih b2 r2 hrec
        simp only [List.length_cons]
        omega
      · simp at h

/-- Body of a glob class: a bracket right after the opening (or after the negation
marker) is part of the body. -/
def classBody : List Char → Option (List Char × List Char)
  | ']' :: t => (takeToBracket t).map (fun p => (']' :: p.1, p.2))
  | t => takeToBracket t

/-- Split a glob class into its negation flag, body and the text after the class. -/
def splitClass (ps : List Char) : Option (Bool × List Char × List Char) :=
  match ps with
  | '!' :: t => (classBody t).map (fun p => (true, p.1, p.2))
  | _ => (classBody ps).map (fun p => (false, p.1, p.2))

theorem classBody_length :
    ∀ l b r, classBody l = some (b, r) → r.length < l.length := by
  intro l b r h
  match l, h with
  | ']' :: t, h =>
    rw [classBody] at h
    rcases ht : takeToBracket t with _ | ⟨b2, r2⟩
    · rw [ht] at h; simp at h
    · rw [ht] at h
      simp at h
      obtain ⟨h1, h2⟩ := h
      subst h2
      have := takeToBracket_length t b2 r2 ht
      simp only [List.length_cons]
      omega
  | [], h => simp [classBody, takeToBracket] at h
  | c :: t, h =>
    by_cases hc : c = ']'
    · subst hc
      rw [classBody] at h
      rcases ht : takeToBracket t with _ | ⟨b2, r2⟩
      · rw [ht] at h; simp at h
      · rw [ht] at h
        simp at h
        obtain ⟨h1, h2⟩ := h
        subst h2
        have := takeToBracket_length t b2 r2 ht
        simp only [List.length_cons]
        omega
    · have hcb : classBody (c :: t) = takeToBracket (c :: t) := by
        rw [classBody.eq_def]
        split
        · rename_i heq
          injection heq with heq1 heq2
          exact absurd heq1 hc
        · rfl
      rw [hcb] at h
      exact takeToBracket_length _ b r h

theorem splitClass_length :
    ∀ l n b r, splitClass l = some (n, b, r) → r.length < l.length := by
  intro l n b r h
  rw [splitClass.eq_def] at h
  split at h
  · rename_i t
    rcases ht : classBody t with _ | ⟨b2, r2⟩
    · rw [ht] at h; simp at h
    · rw [ht] at h
      simp at h
      obtain ⟨h1, h2, h3⟩ := h
      subst h3
      have := classBody_length t b2 r2 ht
      simp only [List.length_cons]
      omega
  · rcases ht : classBody l with _ | ⟨b2, r2⟩
    · rw [ht] at h; simp at h
    · rw [ht] at h
      simp at h
      obtain ⟨h1, h2, h3⟩ := h
      subst h3
      exact classBody_length l b2 r2 ht

/-- Parse the items of a glob class body (single characters and ranges). -/
def parseItems : List Char → List GlobItem
  | a :: '-' :: b :: rest => GlobItem.range a b :: parseItems rest
  | a :: rest => GlobItem.one a :: parseItems rest
  | [] => []

/-- Compile a glob pattern into tokens, following the fnmatch translation (an
unterminated class leaves the opening bracket literal). -/
def compileGlob : List Char → List GlobTok
  | [] => []
  | '*' :: ps => GlobTok.star :: compileGlob ps
  | '?' :: ps => GlobTok.anyOne :: compileGlob ps
  | '[' :: ps =>
    match h : splitClass ps with
    | some (neg, body, rest) => GlobTok.cls neg (parseItems body) :: compileGlob rest
    | none => GlobTok.lit '[' :: compileGlob ps
  | c :: ps => GlobTok.lit c :: compileGlob ps
termination_by l => l.length
decreasing_by
  · simp only [List.length_cons]; omega
  · simp only [List.length_cons]; omega
  · have := splitClass_length ps neg body rest h
    simp only [List.length_cons]
    omega
  · simp only [List.length_cons]; omega
  · simp only [List.length_cons]; omega

/-- Does one class item match a character. -/
def itemMatch (c : Char) : GlobItem → Bool
  | GlobItem.one a => a = c
  | GlobItem.range a b => a ≤ c && c ≤ b

/-- Does a (possibly negated) class match a character. -/
def clsMatch (neg : Bool) (items : List GlobItem) (c : Char) : Bool :=
  if neg then !(items.any (itemMatch c)) else items.any (itemMatch c)

/-- Full match of a compiled glob pattern against text. -/
def globMatch : List GlobTok → List Char → Bool
  | [], [] => true
  | [], _ :: _ => false
  | GlobTok.star :: ts, [] => globMatch ts []
  | GlobTok.star :: ts, c :: s => globMatch ts (c :: s) || globMatch (GlobTok.star :: ts) s
  | GlobTok.anyOne :: ts, _ :: s => globMatch ts s
  | GlobTok.anyOne :: _, [] => false
  | GlobTok.lit a :: ts, c :: s => a = c && globMatch ts s
  | GlobTok.lit _ :: _, [] => false
  | GlobTok.cls neg items :: ts, c :: s => clsMatch neg items c && globMatch ts s
  | GlobTok.cls _ _ :: _, [] => false
termination_by ts s => (ts.length, s.length)
decreasing_by
  all_goals simp_wf
  all_goals first
    | (apply Prod.Lex.left; omega)
    | (apply Prod.Lex.right; omega)

/-- Embedding of fnmatch.fnmatch on a POSIX platform: full glob match. -/
def pyFnmatch (name pattern : String) : Bool :=
  globMatch (compileGlob pattern.data) name.data

/-- Python split on the dot character; the result is never empty. -/
def splitDot : List Char → List (List Char)
  | [] => [[]]
  | c :: rest =>
    if c = '.' then [] :: splitDot rest
    else
      match splitDot rest with
      | seg :: segs => (c :: seg) :: segs
      | [] => [[c]]

/-- Parsed identity of a table, mirroring the TableReference dataclass. -/
structure TableReference where
  full_name : String
  project : String := ""
  dataset : String := ""
  table : String := ""
deriving DecidableEq, Repr

/-- Embedding of TableReference.parse: split the identifier on dots and map the
segments positionally, never failing. -/
def TableReference.parse (table_id : String) : TableReference :=
  match (splitDot table_id.data).map String.mk with
  | a :: b :: c :: _ => { full_name := table_id, project := a, dataset := b, table := c }
  | [a, b] => { full_name := table_id, dataset := a, table := b }
  | [a] => { full_name := table_id, table := a }
  | [] => { full_name := table_id }

/-- Embedding of TableReference.get_dataset_id. -/
def TableReference.get_dataset_id (r : TableReference) : String :=
  if r.project ≠ "" ∧ r.dataset ≠ "" then r.project ++ "." ++ r.dataset else r.dataset

/-- Per-dataset rule of the allowed-datasets mapping. -/
structure DatasetRule where
  allow_all_tables : Bool := true
  blacklisted_tables : List String := []
deriving DecidableEq, Repr

/-- Access control configuration, mirroring the AccessConfig dataclass (the dataset
mapping is an association list; later entries override earlier ones as in a dict). -/
structure AccessConfig where
  allowed_tables : List String
  allowed_datasets : List (String × DatasetRule)
  allowed_patterns : List String

/-- Lookup in the lower-cased dataset dict; the last binding of a key wins. -/
def dictLookup (m : List (String × DatasetRule)) (k : String) : Option DatasetRule :=
  ((m.map (fun p => (pyLower p.1, p.2))).reverse.find? (fun p => p.1 == k)).map
    (fun p => p.2)

/-- Embedding of ExplicitTableAccessStrategy.is_allowed (the stored list is
lower-cased at construction, the candidate at comparison). -/
def explicit_is_allowed (allowed_tables : List String) (ref : TableReference) : Bool :=
  (allowed_tables.map pyLower).contains (pyLower ref.full_name)

/-- Embedding of DatasetAccessStrategy.is_allowed. -/
def dataset_is_allowed (allowed_datasets : List (String × DatasetRule))
    (ref : TableReference) : Bool :=
  let dataset_id := pyLower ref.get_dataset_id
  match dictLookup allowed_datasets dataset_id with
  | none => false
  | some rule =>
    let blacklist_lower := rule.blacklisted_tables.map pyLower
    if blacklist_lower.contains (pyLower ref.table) then false else true

/-- Embedding of PatternAccessStrategy.is_allowed. -/
def pattern_is_allowed (allowed_patterns : List String) (ref : TableReference) : Bool :=
  let table_lower := pyLower ref.full_name
  (allowed_patterns.map pyLower).any (fun pattern => pyFnmatch table_lower pattern)

/-- Embedding of CompositeAccessStrategy.is_allowed: true when any child strategy
allows the reference. -/
def composite_is_allowed (strategies : List (TableReference → Bool))
    (ref : TableReference) : Bool :=
  strategies.any (fun strategy => strategy ref)

/-- Embedding of AccessControlService.build_strategy: include one strategy per
mechanism whose configuration is non-empty. -/
def build_strategy (cfg : AccessConfig) : List (TableReference → Bool) :=
  (if cfg.allowed_tables ≠ [] then [explicit_is_allowed cfg.allowed_tables] else []) ++
    (if cfg.allowed_datasets ≠ [] then [dataset_is_allowed cfg.allowed_datasets] else []) ++
    (if cfg.allowed_patterns ≠ [] then [pattern_is_allowed cfg.allowed_patterns] else [])

/-- Embedding of AccessControlService.is_table_allowed. -/
def is_table_allowed (cfg : AccessConfig) (table_id : String) : Bool :=
  composite_is_allowed (build_strategy cfg) (TableReference.parse table_id)

/-- Characters of a table token in the extraction regex: word characters, hyphen, dot. -/
def isTokenChar (c : Char) : Bool := isWordChar c || c = '-' || c = '.'

/-- Is a character one of the optional token wrappers (backtick or double quote). -/
def isWrapChar (c : Char) : Bool := c = btick || c = dquote

/-- Consume one optional wrapper character. -/
def takeWrap : List Char → (List Char × List Char)
  | [] => ([], [])
  | c :: rest => if isWrapChar c then ([c], rest) else ([], c :: rest)

/-- Parse the captured token of the extraction regex at the position right after the
keyword whitespace: optional wrapper, one or more token characters, optional wrapper;
the capture includes the wrappers. -/
def parseToken (s : List Char) : Option (List Char × List Char) :=
  if ((takeWrap s).2.takeWhile isTokenChar).isEmpty then none
  else
    some ((takeWrap s).1 ++ (takeWrap s).2.takeWhile isTokenChar ++
        (takeWrap ((takeWrap s).2.drop ((takeWrap s).2.takeWhile isTokenChar).length)).1,
      (takeWrap ((takeWrap s).2.drop ((takeWrap s).2.takeWhile isTokenChar).length)).2)

/-- Match the whitespace-then-token part of the extraction regex right after a
keyword occurrence. -/
def matchKeywordToken (s : List Char) : Option (List Char × List Char) :=
  match s with
  | c :: rest =>
    if isPySpace c then parseToken (rest.dropWhile isPySpace)
    else none
  | [] => none

/-- Try to match the whole extraction regex at the current position. -/
def tryMatchAt (s : List Char) : Option (List Char × List Char) :=
  if "from".data.isPrefixOf s then matchKeywordToken (s.drop 4)
  else if "join".data.isPrefixOf s then matchKeywordToken (s.drop 4)
  else none

theorem takeWrap_snd_length : ∀ s, (takeWrap s).2.length ≤ s.length := by
  intro s
  match s with
  | [] => simp [takeWrap]
  | c :: rest =>
    rw [takeWrap]
    split <;> simp

theorem parseToken_length :
    ∀ s t r, parseToken s = some (t, r) → r.length ≤ s.length := by
  intro s t r h
  rw [parseToken] at h
  split at h
  · simp at h
  · simp only [Option.some.injEq, Prod.mk.injEq] at h
    obtain ⟨h1, h2⟩ := h
    subst h2
    calc (takeWrap ((takeWrap s).2.drop
            ((takeWrap s).2.takeWhile isTokenChar).length)).2.length
        ≤ ((takeWrap s).2.drop ((takeWrap s).2.takeWhile isTokenChar).length).length :=
          takeWrap_snd_length _
      _ ≤ (takeWrap s).2.length := List.Sublist.length_le (List.drop_sublist _ _)
      _ ≤ s.length := takeWrap_snd_length s

theorem matchKeywordToken_length :
    ∀ s t r, matchKeywordToken s = some (t, r) → r.length < s.length := by
  intro s t r h
  match s, h with
  | [], h => simp [matchKeywordToken] at h
  | c :: rest, h =>
    rw [matchKeywordToken] at h
    split at h
    · have h1 := parseToken_length _ _ _ h
      have h2 : (rest.dropWhile isPySpace).length ≤ rest.length :=
        List.Sublist.length_le (List.dropWhile_sublist _)
      simp only [List.length_cons]
      omega
    · simp at h

theorem tryMatchAt_length :
    ∀ s t r, tryMatchAt s = some (t, r) → r.length < s.length := by
  intro s t r h
  rw [tryMatchAt] at h
  split at h
  · rename_i hpre
    have h1 := matchKeywordToken_length _ _ _ h
    have h2 : (s.drop 4).length ≤ s.length := List.Sublist.length_le (List.drop_sublist _ _)
    omega
  · split at h
    · rename_i hpre
      have h1 := matchKeywordToken_length _ _ _ h
      have h2 : (s.drop 4).length ≤ s.length :=
        List.Sublist.length_le (List.drop_sublist _ _)
      omega
    · simp at h

/-- Leftmost non-overlapping scan of the extraction regex: on a match continue after
it, otherwise advance one character; fueled like strip underscore block underscore
aux. -/
def extract_scan_aux : Nat → List Char → List (List Char)
  | _, [] => []
  | 0, _ => []
  | fuel + 1, c :: rest =>
    match tryMatchAt (c :: rest) with
    | some (tok, after) => tok :: extract_scan_aux fuel after
    | none => extract_scan_aux fuel rest

/-- Leftmost non-overlapping scan of the extraction regex. -/
def extract_scan (l : List Char) : List (List Char) := extract_scan_aux l.length l

/-- Strip all leading and trailing characters satisfying a predicate. -/
def stripChars (p : Char → Bool) (l : List Char) : List Char :=
  ((l.dropWhile p).reverse.dropWhile p).reverse

/-- Embedding of AccessControlService extract underscore tables: lower-case the query,
scan for keyword-token matches, and clean each captured token of wrapper characters
and whitespace. -/
def extract_tables_from_query (query : String) : List String :=
  (extract_scan (pyLower query).data).map
    (fun tok => String.mk (pyStrip (stripChars isWrapChar tok)))

/-- Error message raised for a denied table. -/
def accessDeniedMessage (t : String) : String :=
  "Table " ++ squoteStr ++ t ++ squoteStr ++
    " is not allowed. Check allowed_tables, allowed_datasets, or allowed_patterns."

/-- First extracted table denied by the policy, in extraction order. -/
def firstDenied (cfg : AccessConfig) : List String → Option String
  | [] => none
  | t :: ts => if is_table_allowed cfg t then firstDenied cfg ts else some t

/-- Embedding of AccessControlService.validate_query_tables: fail fast with the first
denied extracted table. -/
def validate_query_tables (cfg : AccessConfig) (query : String) : Except String Unit :=
  match firstDenied cfg (extract_tables_from_query query) with
  | some t => Except.error (accessDeniedMessage t)
  | none => Except.ok ()

/-- Query execution limits, mirroring the QueryLimits dataclass. -/
structure QueryLimits where
  max_results : Int := 10000
  maximum_bytes_billed : Int := 100 * 1024 * 1024
deriving DecidableEq, Repr

/-- Job configuration passed to the external execution collaborator. -/
structure QueryJobConfig where
  dry_run : Bool := false
  use_query_cache : Bool := true
  maximum_bytes_billed : Option Int := none
deriving DecidableEq, Repr

/-- Result returned by the external execution collaborator for the billed run. -/
structure ExecResult (ρ : Type) where
  rows : List ρ
  total_rows : Nat
  total_bytes_processed : Int
  total_bytes_billed : Int

/-- Outcome of one bq_query call (floating-point derived fields of the payloads are
not modelled; the integral byte counts are carried). -/
inductive BqOutcome (ρ : Type) where
  | error (msg : String)
  | awaiting_confirmation (bytes_to_process : Int) (message instructions query : String)
  | success (total_rows : Nat) (returned_rows : Nat) (rows : List ρ)
      (bytes_processed bytes_billed : Int)

/-- Error message of the max-results ceiling check. -/
def maxResultsMessage (limit : Int) : String :=
  "max_results cannot exceed " ++ toString limit

/-- Message of the confirmation-required response. -/
def confirmationMessage : String :=
  "Query exceeds billing limits. Review cost and confirm to proceed."

/-- Instructions of the confirmation-required response. -/
def confirmationInstructions : String :=
  "To proceed, call bq_query again with confirmed=True parameter."

/-- Embedding of the bq_query tool. The dry-run answer of the external collaborator is
the parameter dry underscore bytes and the billed-run answer is the parameter exec;
the second component collects the job configurations of every issued execution call,
in order. -/
def bq_query {ρ : Type} (limits : QueryLimits) (cfg : AccessConfig) (query : String)
    (max_results : Int) (confirmed : Bool) (dry_bytes : Int) (exec : ExecResult ρ) :
    BqOutcome ρ × List QueryJobConfig :=
  if max_results > limits.max_results then
    (BqOutcome.error (maxResultsMessage limits.max_results), [])
  else
    match validate_or_raise query with
    | Except.error e => (BqOutcome.error e, [])
    | Except.ok _ =>
      match validate_query_tables cfg query with
      | Except.error e => (BqOutcome.error e, [])
      | Except.ok _ =>
        let dry_run_config : QueryJobConfig := { dry_run := true, use_query_cache := false }
        let exceeds_limit := dry_bytes > limits.maximum_bytes_billed
        if exceeds_limit ∧ ¬confirmed then
          (BqOutcome.awaiting_confirmation dry_bytes confirmationMessage
              confirmationInstructions query,
            [dry_run_config])
        else
          let job_config : QueryJobConfig :=
            { maximum_bytes_billed :=
                some (if exceeds_limit then dry_bytes else limits.maximum_bytes_billed) }
          let results := exec.rows.take max_results.toNat
          (BqOutcome.success exec.total_rows results.length results
              exec.total_bytes_processed exec.total_bytes_billed,
            [dry_run_config, job_config])

/-- Outcome of one estimate underscore query underscore cost call. -/
inductive EstimateOutcome where
  | error (msg : String)
  | estimate (query : String) (bytes_processed : Int)
deriving DecidableEq, Repr

/-- Embedding of the estimate underscore query underscore cost tool, instrumented like
bq_query. -/
def estimate_query_cost (cfg : AccessConfig) (query : String) (dry_bytes : Int) :
    EstimateOutcome × List QueryJobConfig :=
  match validate_or_raise query with
  | Except.error e => (EstimateOutcome.error e, [])
  | Except.ok _ =>
    match validate_query_tables cfg query with
    | Except.error e => (EstimateOutcome.error e, [])
    | Except.ok _ =>
      (EstimateOutcome.estimate query dry_bytes,
        [{ dry_run := true, use_query_cache := false }])

/-- Lexing mode of the claim-side (specification) reading of comments and string
literals in SQL text. -/
inductive LexMode where
  | normal
  | lineComment
  | blockComment
  | singleQ
  | doubleQ
deriving DecidableEq, Repr

/-- Claim-side masking of comments and string literals: characters inside a comment
or literal (and the delimiters) are replaced by spaces, a line comment ends at the
end of its line, a block comment at its closing delimiter, and quoted literals honor
doubled-quote escapes. Unterminated spans extend to the end of the text. -/
def specStripAux : LexMode → List Char → List Char
  | _, [] => []
  | LexMode.normal, '-' :: '-' :: rest => ' ' :: ' ' :: specStripAux LexMode.lineComment rest
  | LexMode.normal, '/' :: '*' :: rest => ' ' :: ' ' :: specStripAux LexMode.blockComment rest
  | LexMode.normal, c :: rest =>
    if c = squote then ' ' :: specStripAux LexMode.singleQ rest
    else if c = dquote then ' ' :: specStripAux LexMode.doubleQ rest
    else c :: specStripAux LexMode.normal rest
  | LexMode.lineComment, '\n' :: rest => '\n' :: specStripAux LexMode.normal rest
  | LexMode.lineComment, _ :: rest => ' ' :: specStripAux LexMode.lineComment rest
  | LexMode.blockComment, '*' :: '/' :: rest => ' ' :: ' ' :: specStripAux LexMode.normal rest
  | LexMode.blockComment, _ :: rest => ' ' :: specStripAux LexMode.blockComment rest
  | LexMode.singleQ, c :: c2 :: rest =>
    if c = squote then
      if c2 = squote then ' ' :: ' ' :: specStripAux LexMode.singleQ rest
      else ' ' :: specStripAux LexMode.normal (c2 :: rest)
    else ' ' :: specStripAux LexMode.singleQ (c2 :: rest)
  | LexMode.singleQ, [_] => [' ']
  | LexMode.doubleQ, c :: c2 :: rest =>
    if c = dquote then
      if c2 = dquote then ' ' :: ' ' :: specStripAux LexMode.doubleQ rest
      else ' ' :: specStripAux LexMode.normal (c2 :: rest)
    else ' ' :: specStripAux LexMode.doubleQ (c2 :: rest)
  | LexMode.doubleQ, [_] => [' ']

/-- Claim-side masking of comments and literals on a string. -/
def specStrip (q : String) : String := String.mk (specStripAux LexMode.normal q.data)

/-- Claim-side judgement: the keyword occurs as a whole word in the query text
outside every string literal and comment (line comments ending at their line). -/
def keywordOutsideLiterals (q kw : String) : Bool :=
  search_word (pyUpper (specStrip q)).data kw.data

/-- Claim-side operation for the single-statement rule: strip exactly one trailing
semicolon if present. -/
def stripOneTrailingSemi (l : List Char) : List Char :=
  match l.reverse with
  | c :: rest => if c = ';' then rest.reverse else l
  | [] => l

/-- The keyword occurs in the text with a word boundary on each side (positional
characterization, independent of the scanning search). -/
def WordOccursIn (s kw : List Char) : Prop :=
  ∃ pre post, s = pre ++ kw ++ post ∧
    wordBoundary pre.getLast? = true ∧ wordEndsOk post = true

/-- Every semicolon of the text is part of one trailing run of semicolons. -/
def SemisOnlyTrailing (l : List Char) : Prop :=
  ∃ a b, l = a ++ b ∧ ¬ ';' ∈ a ∧ ∀ c ∈ b, c = ';'

instance : DecidableEq (Except String Unit) := fun a b =>
  match a, b with
  | Except.ok (), Except.ok () => isTrue rfl
  | Except.error x, Except.error y =>
    if h : x = y then isTrue (by rw [h]) else
      isFalse (by intro hh; exact h (by injection hh))
  | Except.ok _, Except.error _ => isFalse (by intro h; exact Except.noConfusion h)
  | Except.error _, Except.ok _ => isFalse (by intro h; exact Except.noConfusion h)

theorem toNat_ofNat_small {n : Nat} (h : n < 55296) : (Char.ofNat n).toNat = n := by
  rw [Char.ofNat, dif_pos (Or.inl h)]
  rfl

theorem char_toNat_inj {a b : Char} (h : a.toNat = b.toNat) : a = b := by
  apply Char.ext
  exact UInt32.ext h

theorem toNat_upperChar (c : Char) :
    (upperChar c).toNat = if 97 ≤ c.toNat ∧ c.toNat ≤ 122 then c.toNat - 32 else c.toNat := by
  unfold upperChar
  split
  · rename_i h
    exact toNat_ofNat_small (by omega)
  · rfl

theorem toNat_lowerChar (c : Char) :
    (lowerChar c).toNat = if 65 ≤ c.toNat ∧ c.toNat ≤ 90 then c.toNat + 32 else c.toNat := by
  unfold lowerChar
  split
  · rename_i h
    exact toNat_ofNat_small (by omega)
  · rfl

theorem lowerChar_upperChar (c : Char) : lowerChar (upperChar c) = lowerChar c := by
  apply char_toNat_inj
  rw [toNat_lowerChar, toNat_lowerChar, toNat_upperChar]
  split_ifs <;> omega

theorem lowerChar_lowerChar (c : Char) : lowerChar (lowerChar c) = lowerChar c := by
  apply char_toNat_inj
  rw [toNat_lowerChar, toNat_lowerChar]
  split_ifs <;> omega

theorem upperChar_dot_iff (c : Char) : upperChar c = '.' ↔ c = '.' := by
  constructor
  · intro h
    apply char_toNat_inj
    have h2 := congrArg Char.toNat h
    rw [toNat_upperChar] at h2
    have hdot : ('.' : Char).toNat = 46 := by decide
    rw [hdot] at h2 ⊢
    split at h2 <;> omega
  · intro h
    subst h
    decide

theorem lowerChar_dot_iff (c : Char) : lowerChar c = '.' ↔ c = '.' := by
  constructor
  · intro h
    apply char_toNat_inj
    have h2 := congrArg Char.toNat h
    rw [toNat_lowerChar] at h2
    have hdot : ('.' : Char).toNat = 46 := by decide
    rw [hdot] at h2 ⊢
    split at h2 <;> omega
  · intro h
    subst h
    decide

/-- C8: a call with max results above the configured ceiling fails with the limit
error and an empty call list, for every query, policy and collaborator answer — so
the rejection precedes validation and every external call. -/
theorem C8_limit_exceeded_before_everything {ρ : Type} (limits : QueryLimits)
    (cfg : AccessConfig) (query : String) (max_results : Int) (confirmed : Bool)
    (dry_bytes : Int) (exec : ExecResult ρ)
    (h : max_results > limits.max_results) :
    bq_query limits cfg query max_results confirmed dry_bytes exec =
      (BqOutcome.error (maxResultsMessage limits.max_results), []) := by
  unfold bq_query
  rw [if_pos h]

/-- Witness for C8 at a concrete over-ceiling request. -/
theorem C8_witness :
    bq_query ({} : QueryLimits) ⟨[], [], []⟩ "DELETE FROM t" 10001 false 0
        (ExecResult.mk ([] : List Unit) 0 0 0) =
      (BqOutcome.error (maxResultsMessage 10000), []) :=
  C8_limit_exceeded_before_everything _ _ _ _ _ _ _ (by decide)

/-- C9: when safety validation or table authorization fails, cost estimation
returns the raised error and issues no call to the external collaborator. -/
theorem C9_estimate_validates_first (cfg : AccessConfig) (query : String) (dry_bytes : Int)
    (h : validate_or_raise query ≠ Except.ok () ∨
      validate_query_tables cfg query ≠ Except.ok ()) :
    ∃ msg, estimate_query_cost cfg query dry_bytes = (EstimateOutcome.error msg, []) := by
  unfold estimate_query_cost
  rcases hv : validate_or_raise query with e | u
  · exact ⟨e, rfl⟩
  · cases u
    rcases ht : validate_query_tables cfg query with e | u2
    · exact ⟨e, rfl⟩
    · cases u2
      exfalso
      rcases h with h | h
      · exact h hv
      · exact h ht

/-- Witness for C9 at a concrete forbidden query. -/
theorem C9_witness :
    ∃ msg, estimate_query_cost ⟨[], [], []⟩ "DELETE FROM t" 0 =
      (EstimateOutcome.error msg, []) :=
  C9_estimate_validates_first _ _ _ (Or.inl (by decide))

/-- C10: when the lexical scan extracts no table, table validation passes under
every access policy, including the empty policy. -/
theorem C10_no_tables_vacuous_pass (cfg : AccessConfig) (query : String)
    (h : extract_tables_from_query query = []) :
    validate_query_tables cfg query = Except.ok () := by
  unfold validate_query_tables
  rw [h]
  rfl

/-- Witness for C10: the scan of a table-free query extracts nothing and validation
passes under the empty policy. -/
theorem C10_witness :
    extract_tables_from_query "SELECT 1" = [] ∧
    validate_query_tables ⟨[], [], []⟩ "SELECT 1" = Except.ok () :=
  ⟨by decide, C10_no_tables_vacuous_pass _ _ (by decide)⟩

/-- C2: for a request that passes the pre-checks, an over-threshold dry run with
confirmed false returns the awaiting-confirmation payload (carrying the byte
estimate, the message, the resubmission instructions and the query) after the
dry-run call only; with confirmed true the billed call sets the ceiling to the
dry-run bytes; an under-threshold dry run sets the ceiling to the configured
maximum; and every billed call carries some ceiling. -/
theorem C2_cost_guard_round_trip {ρ : Type} (limits : QueryLimits) (cfg : AccessConfig)
    (query : String) (max_results : Int) (confirmed : Bool) (dry_bytes : Int)
    (exec : ExecResult ρ)
    (hmr : ¬ max_results > limits.max_results)
    (hv : validate_or_raise query = Except.ok ())
    (ht : validate_query_tables cfg query = Except.ok ()) :
    (dry_bytes > limits.maximum_bytes_billed →
      bq_query limits cfg query max_results false dry_bytes exec =
        (BqOutcome.awaiting_confirmation dry_bytes confirmationMessage
            confirmationInstructions query,
          [{ dry_run := true, use_query_cache := false }])) ∧
    (dry_bytes > limits.maximum_bytes_billed →
      (bq_query limits cfg query max_results true dry_bytes exec).2 =
        [{ dry_run := true, use_query_cache := false },
          { maximum_bytes_billed := some dry_bytes }]) ∧
    (¬ dry_bytes > limits.maximum_bytes_billed →
      (bq_query limits cfg query max_results confirmed dry_bytes exec).2 =
        [{ dry_run := true, use_query_cache := false },
          { maximum_bytes_billed := some limits.maximum_bytes_billed }]) ∧
    (∀ jc ∈ (bq_query limits cfg query max_results confirmed dry_bytes exec).2,
      jc.dry_run = false → ∃ b, jc.maximum_bytes_billed = some b) := by
  unfold bq_query
  rw [if_neg hmr, hv, ht]
  refine ⟨?_, ?_, ?_, ?_⟩
  · intro hex
    simp [hex, hmr]
  · intro hex
    simp [hex, hmr]
  · intro hex
    simp [hex, hmr]
  · intro jc hjc hdr
    by_cases hex : dry_bytes > limits.maximum_bytes_billed
    · by_cases hc : confirmed = true
      · simp [hex, hc, hmr] at hjc
        rcases hjc with h1 | h1 <;> subst h1
        · simp at hdr
        · exact ⟨_, rfl⟩
      · simp [hex, hc, hmr] at hjc
        subst hjc
        simp at hdr
    · simp [hex, hmr] at hjc
      rcases hjc with h1 | h1 <;> subst h1
      · simp at hdr
      · exact ⟨_, rfl⟩

/-- Witness for C2 at a concrete over-threshold unconfirmed request. -/
theorem C2_witness :
    bq_query ({} : QueryLimits) ⟨["t1"], [], []⟩ "select * from t1" 10 false 209715200
        (ExecResult.mk ([] : List Unit) 0 0 0) =
      (BqOutcome.awaiting_confirmation 209715200 confirmationMessage
          confirmationInstructions "select * from t1",
        [{ dry_run := true, use_query_cache := false }]) :=
  (C2_cost_guard_round_trip ({} : QueryLimits) ⟨["t1"], [], []⟩ "select * from t1" 10 false
      209715200 (ExecResult.mk ([] : List Unit) 0 0 0)
      (by decide) (by decide) (by decide)).1 (by decide)

theorem splitDot_ne_nil : ∀ l : List Char, splitDot l ≠ [] := by
  intro l
  cases l with
  | nil => simp [splitDot]
  | cons c rest =>
    rw [splitDot]
    split
    · simp
    · split <;> simp

theorem splitDot_dotfree : ∀ l : List Char, ¬ '.' ∈ l → splitDot l = [l] := by
  intro l
  induction l with
  | nil => intro h; rfl
  | cons c rest ih =>
    intro h
    simp only [List.mem_cons, not_or] at h
    obtain ⟨h1, h2⟩ := h
    rw [splitDot, if_neg (fun hh => h1 hh.symm), ih h2]

theorem splitDot_append (a rest : List Char) (ha : ¬ '.' ∈ a) :
    splitDot (a ++ '.' :: rest) = a :: splitDot rest := by
  induction a with
  | nil => simp [splitDot]
  | cons c a2 ih =>
    simp only [List.mem_cons, not_or] at ha
    obtain ⟨h1, h2⟩ := ha
    rw [List.cons_append, splitDot, if_neg (fun hh => h1 hh.symm), ih h2]

theorem splitDot_head :
    ∀ l : List Char, ∃ segs, splitDot l = (l.takeWhile (fun c => c ≠ '.')) :: segs := by
  intro l
  induction l with
  | nil => exact ⟨[], rfl⟩
  | cons c rest ih =>
    by_cases hc : c = '.'
    · subst hc
      refine ⟨splitDot rest, ?_⟩
      rw [splitDot, if_pos rfl]
      simp [List.takeWhile]
    · obtain ⟨segs, hs⟩ := ih
      refine ⟨segs, ?_⟩
      rw [splitDot, if_neg hc, hs]
      simp [List.takeWhile, hc]

/-- C7: parsing is total and segment-mapped: the full name always keeps the input;
with three or more dot-separated segments, the first three become project, dataset
and table; with two, dataset and table with empty project; a dot-free (possibly
empty) input becomes the table; and the dataset id is the dotted pair when project
and dataset are both non-empty, else the dataset alone. -/
theorem C7_parse_total_and_segment_mapped :
    (∀ s : String, (TableReference.parse s).full_name = s) ∧
    (∀ a b c : List Char, ¬ '.' ∈ a → ¬ '.' ∈ b →
      TableReference.parse (String.mk (a ++ '.' :: (b ++ '.' :: c))) =
        { full_name := String.mk (a ++ '.' :: (b ++ '.' :: c)),
          project := String.mk a, dataset := String.mk b,
          table := String.mk (c.takeWhile (fun d => d ≠ '.')) }) ∧
    (∀ a b : List Char, ¬ '.' ∈ a → ¬ '.' ∈ b →
      TableReference.parse (String.mk (a ++ '.' :: b)) =
        { full_name := String.mk (a ++ '.' :: b), project := "",
          dataset := String.mk a, table := String.mk b }) ∧
    (∀ a : List Char, ¬ '.' ∈ a →
      TableReference.parse (String.mk a) =
        { full_name := String.mk a, project := "", dataset := "",
          table := String.mk a }) ∧
    (∀ r : TableReference,
      (r.project ≠ "" ∧ r.dataset ≠ "" →
        r.get_dataset_id = r.project ++ "." ++ r.dataset) ∧
      (r.project = "" ∨ r.dataset = "" → r.get_dataset_id = r.dataset)) := by
  refine ⟨?_, ?_, ?_, ?_, ?_⟩
  · intro s
    unfold TableReference.parse
    split <;> rfl
  · intro a b c ha hb
    unfold TableReference.parse
    obtain ⟨segs, hs⟩ := splitDot_head c
    simp only [String.data]
    rw [splitDot_append a _ ha, splitDot_append b _ hb, hs]
    simp
  · intro a b ha hb
    unfold TableReference.parse
    simp only [String.data]
    rw [splitDot_append a _ ha, splitDot_dotfree b hb]
    simp
  · intro a ha
    unfold TableReference.parse
    simp only [String.data]
    rw [splitDot_dotfree a ha]
    simp
  · intro r
    constructor
    · intro h
      unfold TableReference.get_dataset_id
      rw [if_pos h]
    · intro h
      unfold TableReference.get_dataset_id
      rw [if_neg (by tauto)]

/-- Witness for C7 at a concrete four-segment identifier. -/
theorem C7_witness :
    TableReference.parse "p.d.t.x" =
      { full_name := "p.d.t.x", project := "p", dataset := "d", table := "t" } := by
  have h := C7_parse_total_and_segment_mapped.2.1 "p".data "d".data "t.x".data
    (by decide) (by decide)
  exact h

theorem parse_full_name (s : String) : (TableReference.parse s).full_name = s := by
  unfold TableReference.parse
  split <;> rfl

theorem splitDot_map (f : Char → Char) (hf : ∀ c, f c = '.' ↔ c = '.') :
    ∀ l : List Char, splitDot (l.map f) = (splitDot l).map (List.map f) := by
  intro l
  induction l with
  | nil => simp [splitDot]
  | cons c rest ih =>
    by_cases hc : c = '.'
    · subst hc
      have hfc : f '.' = '.' := (hf _).mpr rfl
      simp only [List.map_cons, splitDot, hfc, if_pos]
      rw [ih]
      simp
    · have hfc : ¬ f c = '.' := fun h => hc ((hf c).mp h)
      rcases hsr : splitDot rest with _ | ⟨seg, segs⟩
      · exact absurd hsr (splitDot_ne_nil rest)
      · simp only [List.map_cons, splitDot, if_neg hc, if_neg hfc]
        rw [ih, hsr]
        simp

theorem parse_map (f : Char → Char) (hf : ∀ c, f c = '.' ↔ c = '.') (s : String) :
    (TableReference.parse (String.mk (s.data.map f))).project =
        String.mk ((TableReference.parse s).project.data.map f) ∧
      (TableReference.parse (String.mk (s.data.map f))).dataset =
        String.mk ((TableReference.parse s).dataset.data.map f) ∧
      (TableReference.parse (String.mk (s.data.map f))).table =
        String.mk ((TableReference.parse s).table.data.map f) := by
  unfold TableReference.parse
  simp only [String.data]
  rw [splitDot_map f hf]
  rcases hsd : splitDot s.data with _ | ⟨a, rest⟩
  · exact absurd hsd (splitDot_ne_nil s.data)
  · rcases rest with _ | ⟨b, rest2⟩
    · exact ⟨rfl, rfl, rfl⟩
    · rcases rest2 with _ | ⟨c, rest3⟩
      · exact ⟨rfl, rfl, rfl⟩
      · exact ⟨rfl, rfl, rfl⟩

theorem pyLower_mapStr (f : Char → Char) (hfl : ∀ c, lowerChar (f c) = lowerChar c)
    (s : String) : pyLower (String.mk (s.data.map f)) = pyLower s := by
  unfold pyLower
  simp only [String.data, List.map_map]
  exact congrArg String.mk (List.map_congr_left (fun a _ => hfl a))

theorem mk_eq_empty_iff (l : List Char) : String.mk l = "" ↔ l = [] := by
  constructor
  · intro h
    have : (String.mk l).data = ("" : String).data := by rw [h]
    simpa using this
  · intro h
    subst h
    rfl

theorem pyLower_append (s t : String) : pyLower (s ++ t) = pyLower s ++ pyLower t := by
  rcases s with ⟨ls⟩
  rcases t with ⟨lt⟩
  unfold pyLower
  show String.mk ((ls ++ lt).map lowerChar) = String.mk (ls.map lowerChar ++ lt.map lowerChar)
  rw [List.map_append]

theorem mapStr_ne_empty_iff (f : Char → Char) (s : String) :
    String.mk (s.data.map f) ≠ "" ↔ s ≠ "" := by
  rw [ne_eq, mk_eq_empty_iff, List.map_eq_nil_iff]
  constructor
  · intro h hs
    subst hs
    exact h rfl
  · intro h hd
    exact h (by rcases s with ⟨ls⟩; simp at hd; rw [hd])

theorem pyLower_get_dataset_id_mapped (f : Char → Char)
    (hfl : ∀ c, lowerChar (f c) = lowerChar c) (r r2 : TableReference)
    (hp : r2.project = String.mk (r.project.data.map f))
    (hd : r2.dataset = String.mk (r.dataset.data.map f)) :
    pyLower r2.get_dataset_id = pyLower r.get_dataset_id := by
  unfold TableReference.get_dataset_id
  rw [hp, hd]
  by_cases hcond : r.project ≠ "" ∧ r.dataset ≠ ""
  · rw [if_pos ⟨(mapStr_ne_empty_iff f r.project).mpr hcond.1,
        (mapStr_ne_empty_iff f r.dataset).mpr hcond.2⟩, if_pos hcond]
    rw [pyLower_append, pyLower_append, pyLower_append, pyLower_append]
    rw [pyLower_mapStr f hfl r.project, pyLower_mapStr f hfl r.dataset]
  · rw [if_neg (fun hcc => hcond ⟨(mapStr_ne_empty_iff f r.project).mp hcc.1,
        (mapStr_ne_empty_iff f r.dataset).mp hcc.2⟩), if_neg hcond]
    exact pyLower_mapStr f hfl r.dataset

theorem explicit_congr (ts : List String) {r r2 : TableReference}
    (h : pyLower r2.full_name = pyLower r.full_name) :
    explicit_is_allowed ts r2 = explicit_is_allowed ts r := by
  unfold explicit_is_allowed
  rw [h]

theorem pattern_congr (ps : List String) {r r2 : TableReference}
    (h : pyLower r2.full_name = pyLower r.full_name) :
    pattern_is_allowed ps r2 = pattern_is_allowed ps r := by
  unfold pattern_is_allowed
  rw [h]

theorem dataset_congr (ds : List (String × DatasetRule)) {r r2 : TableReference}
    (h1 : pyLower r2.get_dataset_id = pyLower r.get_dataset_id)
    (h2 : pyLower r2.table = pyLower r.table) :
    dataset_is_allowed ds r2 = dataset_is_allowed ds r := by
  unfold dataset_is_allowed
  rw [h1, h2]

theorem is_table_allowed_mapped (f : Char → Char) (hf : ∀ c, f c = '.' ↔ c = '.')
    (hfl : ∀ c, lowerChar (f c) = lowerChar c) (cfg : AccessConfig) (X : String) :
    is_table_allowed cfg (String.mk (X.data.map f)) = is_table_allowed cfg X := by
  obtain ⟨hpp, hpd, hpt⟩ := parse_map f hf X
  have hfull : pyLower (TableReference.parse (String.mk (X.data.map f))).full_name =
      pyLower (TableReference.parse X).full_name := by
    rw [parse_full_name, parse_full_name]
    exact pyLower_mapStr f hfl X
  have hds : pyLower (TableReference.parse (String.mk (X.data.map f))).get_dataset_id =
      pyLower (TableReference.parse X).get_dataset_id :=
    pyLower_get_dataset_id_mapped f hfl _ _ hpp hpd
  have htab : pyLower (TableReference.parse (String.mk (X.data.map f))).table =
      pyLower (TableReference.parse X).table := by
    rw [hpt]
    exact pyLower_mapStr f hfl (TableReference.parse X).table
  unfold is_table_allowed composite_is_allowed build_strategy
  by_cases h1 : cfg.allowed_tables = [] <;> by_cases h2 : cfg.allowed_datasets = [] <;>
    by_cases h3 : cfg.allowed_patterns = [] <;>
    simp [h1, h2, h3, explicit_congr cfg.allowed_tables hfull,
      dataset_congr cfg.allowed_datasets hds htab, pattern_congr cfg.allowed_patterns hfull]

/-- C5: table authorization is invariant under upper- and lower-casing of the
candidate identifier, for every access policy. -/
theorem C5_case_insensitive_idempotent (cfg : AccessConfig) (X : String) :
    is_table_allowed cfg (pyUpper X) = is_table_allowed cfg X ∧
    is_table_allowed cfg (pyLower X) = is_table_allowed cfg X :=
  ⟨is_table_allowed_mapped upperChar upperChar_dot_iff lowerChar_upperChar cfg X,
   is_table_allowed_mapped lowerChar lowerChar_dot_iff lowerChar_lowerChar cfg X⟩

theorem explicit_empty (r : TableReference) : explicit_is_allowed [] r = false := by
  rfl

theorem dataset_empty (r : TableReference) : dataset_is_allowed [] r = false := by
  rfl

theorem pattern_empty (r : TableReference) : pattern_is_allowed [] r = false := by
  rfl

theorem is_table_allowed_disjunction (cfg : AccessConfig) (X : String) :
    is_table_allowed cfg X =
      (explicit_is_allowed cfg.allowed_tables (TableReference.parse X) ||
        dataset_is_allowed cfg.allowed_datasets (TableReference.parse X) ||
        pattern_is_allowed cfg.allowed_patterns (TableReference.parse X)) := by
  unfold is_table_allowed composite_is_allowed build_strategy
  by_cases h1 : cfg.allowed_tables = [] <;> by_cases h2 : cfg.allowed_datasets = [] <;>
    by_cases h3 : cfg.allowed_patterns = [] <;>
    simp [h1, h2, h3, explicit_empty, dataset_empty, pattern_empty, Bool.or_assoc]

theorem perm_any_eq {α : Type} (l l2 : List α) (p : α → Bool) (h : l.Perm l2) :
    l.any p = l2.any p := by
  rcases hb : l2.any p with _ | _
  · rw [List.any_eq_false] at hb ⊢
    intro x hx
    exact hb x (h.mem_iff.mp hx)
  · rw [List.any_eq_true] at hb ⊢
    obtain ⟨x, hx, hpx⟩ := hb
    exact ⟨x, h.mem_iff.mpr hx, hpx⟩

/-- C6: policy composition is a pure disjunction — the composite allows a reference
iff the explicit, dataset, or pattern mechanism allows it (an omitted empty mechanism
denying everything); the composite is invariant under permutation of its child
strategies; and turning on any one previously empty mechanism never revokes an
identifier the configuration already allowed. -/
theorem C6_pure_or_composition :
    (∀ (cfg : AccessConfig) (X : String),
      is_table_allowed cfg X = true ↔
        (explicit_is_allowed cfg.allowed_tables (TableReference.parse X) = true ∨
          dataset_is_allowed cfg.allowed_datasets (TableReference.parse X) = true ∨
          pattern_is_allowed cfg.allowed_patterns (TableReference.parse X) = true)) ∧
    (∀ (l l2 : List (TableReference → Bool)) (r : TableReference), l.Perm l2 →
      composite_is_allowed l r = composite_is_allowed l2 r) ∧
    (∀ (cfg : AccessConfig) (ts : List String) (X : String),
      cfg.allowed_tables = [] → is_table_allowed cfg X = true →
        is_table_allowed { cfg with allowed_tables := ts } X = true) ∧
    (∀ (cfg : AccessConfig) (ds : List (String × DatasetRule)) (X : String),
      cfg.allowed_datasets = [] → is_table_allowed cfg X = true →
        is_table_allowed { cfg with allowed_datasets := ds } X = true) ∧
    (∀ (cfg : AccessConfig) (ps : List String) (X : String),
      cfg.allowed_patterns = [] → is_table_allowed cfg X = true →
        is_table_allowed { cfg with allowed_patterns := ps } X = true) := by
  have hd : ∀ (cfg : AccessConfig) (X : String),
      is_table_allowed cfg X = true ↔
        (explicit_is_allowed cfg.allowed_tables (TableReference.parse X) = true ∨
          dataset_is_allowed cfg.allowed_datasets (TableReference.parse X) = true ∨
          pattern_is_allowed cfg.allowed_patterns (TableReference.parse X) = true) := by
    intro cfg X
    rw [is_table_allowed_disjunction]
    simp [or_assoc]
  refine ⟨hd, ?_, ?_, ?_, ?_⟩
  · intro l l2 r hperm
    unfold composite_is_allowed
    exact perm_any_eq _ _ _ hperm
  · intro cfg ts X hemp h
    rw [hd] at h
    rw [hd]
    rcases h with h | h
    · rw [hemp] at h
      simp [explicit_empty] at h
    · exact Or.inr h
  · intro cfg ds X hemp h
    rw [hd] at h
    rw [hd]
    rcases h with h | h | h
    · exact Or.inl h
    · rw [hemp] at h
      simp [dataset_empty] at h
    · exact Or.inr (Or.inr h)
  · intro cfg ps X hemp h
    rw [hd] at h
    rw [hd]
    rcases h with h | h | h
    · exact Or.inl h
    · exact Or.inr (Or.inl h)
    · rw [hemp] at h
      simp [pattern_empty] at h

theorem dropWhile_all_append {p : Char → Bool} (b a : List Char)
    (hb : ∀ c ∈ b, p c = true) :
    (b ++ a).dropWhile p = a.dropWhile p := by
  induction b with
  | nil => rfl
  | cons c t ih =>
    rw [List.cons_append, List.dropWhile_cons_of_pos (hb c (by simp))]
    exact ih (fun d hd => hb d (by simp [hd]))

theorem dropWhile_no_semi (a : List Char) (ha : ¬ ';' ∈ a) :
    a.dropWhile (fun c => c = ';') = a := by
  cases a with
  | nil => rfl
  | cons c t =>
    have hc : ¬ c = ';' := fun h => ha (by simp [h])
    rw [List.dropWhile_cons_of_neg (by simp [hc])]

theorem rstripSemi_contains_iff (l : List Char) :
    (rstripSemi l).contains ';' = false ↔ SemisOnlyTrailing l := by
  unfold rstripSemi SemisOnlyTrailing
  constructor
  · intro h
    refine ⟨(l.reverse.dropWhile (fun c => c = ';')).reverse,
      (l.reverse.takeWhile (fun c => c = ';')).reverse, ?_, ?_, ?_⟩
    · rw [← List.reverse_append, List.takeWhile_append_dropWhile, List.reverse_reverse]
    · intro hmem
      have h2 : (List.dropWhile (fun c => decide (c = ';')) l.reverse).reverse.contains ';' =
          true := List.elem_iff.mpr hmem
      rw [h2] at h
      exact Bool.noConfusion h
    · intro c hc
      rw [List.mem_reverse] at hc
      have := List.mem_takeWhile_imp hc
      simpa using this
  · rintro ⟨a, b, hl, ha, hb⟩
    subst hl
    rw [List.reverse_append]
    rw [dropWhile_all_append b.reverse a.reverse
      (fun c hc => by simp [hb c (List.mem_reverse.mp hc)])]
    rw [dropWhile_no_semi a.reverse (fun h => ha (List.mem_reverse.mp h))]
    rw [List.reverse_reverse]
    rcases hc : a.contains ';' with _ | _
    · rfl
    · exact absurd (List.elem_iff.mp hc) ha

/-- C3 counterexample: in the query SELECT 1 with two trailing semicolons, a
semicolon remains after stripping exactly one trailing semicolon, so the claim
demands a MultiStatement failure; the validator, which strips every trailing
semicolon, accepts it. -/
theorem C3_counterexample :
    (stripOneTrailingSemi (normalize_query "SELECT 1;;").data).contains ';' = true ∧
    multi_statement_validate "SELECT 1;;" = { is_valid := true, error_message := "" } :=
  ⟨by decide, by decide⟩

/-- C3 amended: the single-statement validator strips every trailing semicolon of
the normalized query (not exactly one) and accepts exactly when every semicolon of
the normalized query lies in one trailing run; otherwise it fails with the
multi-statement message. -/
theorem C3_all_trailing_semis_stripped (query : String) :
    ((multi_statement_validate query).is_valid = true ↔
      SemisOnlyTrailing (normalize_query query).data) ∧
    (¬ SemisOnlyTrailing (normalize_query query).data →
      multi_statement_validate query =
        { is_valid := false, error_message := multiMessage }) := by
  have hkey := rstripSemi_contains_iff (normalize_query query).data
  rcases hb : (rstripSemi (normalize_query query).data).contains ';' with _ | _
  · have hnm : ¬ ';' ∈ rstripSemi (normalize_query query).data := fun hm => by
      have h2 : (rstripSemi (normalize_query query).data).contains ';' = true :=
        List.elem_iff.mpr hm
      rw [h2] at hb
      exact Bool.noConfusion hb
    have hv : multi_statement_validate query =
        { is_valid := true, error_message := "" } := by
      unfold multi_statement_validate
      simp [hnm]
    rw [hv]
    constructor
    · constructor
      · intro _
        exact hkey.mp hb
      · intro _
        rfl
    · intro hns
      exact absurd (hkey.mp hb) hns
  · have hm : ';' ∈ rstripSemi (normalize_query query).data := List.elem_iff.mp hb
    have hv : multi_statement_validate query =
        { is_valid := false, error_message := multiMessage } := by
      unfold multi_statement_validate
      simp [hm]
    rw [hv]
    constructor
    · constructor
      · intro hfalse
        exact absurd hfalse (by decide)
      · intro hs
        have h2 := hkey.mpr hs
        rw [hb] at h2
        exact Bool.noConfusion h2
    · intro hns
      rfl

/-- Witness for the amended C3 theorem at a concrete multi-statement query. -/
theorem C3_witness :
    multi_statement_validate "SELECT * FROM t; DROP TABLE x;" =
      { is_valid := false, error_message := multiMessage } :=
  (C3_all_trailing_semis_stripped "SELECT * FROM t; DROP TABLE x;").2 (by
    intro hs
    have h2 := (rstripSemi_contains_iff
      (normalize_query "SELECT * FROM t; DROP TABLE x;").data).mpr hs
    rw [show (rstripSemi (normalize_query "SELECT * FROM t; DROP TABLE x;").data).contains
        ';' = true from by decide] at h2
    exact Bool.noConfusion h2)

/-- The character just before the current scan position: the last of the consumed
prefix, or the entry character when nothing was consumed. -/
def lastOfPrefix (prev : Option Char) (pre : List Char) : Option Char :=
  match pre.getLast? with
  | some c => some c
  | none => prev

theorem lastOfPrefix_cons (prev : Option Char) (c : Char) (pre : List Char) :
    lastOfPrefix prev (c :: pre) = lastOfPrefix (some c) pre := by
  unfold lastOfPrefix
  rw [List.getLast?_cons]
  rcases hg : pre.getLast? with _ | d <;> simp [hg]

theorem matchWordHere_iff (kw : List Char) (prev : Option Char) (s : List Char) :
    matchWordHere kw prev s = true ↔
      ∃ post, s = kw ++ post ∧ wordBoundary prev = true ∧ wordEndsOk post = true := by
  unfold matchWordHere
  rw [Bool.and_eq_true, Bool.and_eq_true, List.isPrefixOf_iff_prefix]
  constructor
  · rintro ⟨⟨hb, ⟨t, ht⟩⟩, he⟩
    refine ⟨t, ht.symm, hb, ?_⟩
    rw [← ht, List.drop_left] at he
    exact he
  · rintro ⟨post, heq, hb, he⟩
    subst heq
    exact ⟨⟨hb, ⟨post, rfl⟩⟩, by rw [List.drop_left]; exact he⟩

theorem search_word_from_iff (kw : List Char) :
    ∀ (s : List Char) (prev : Option Char),
      search_word_from kw prev s = true ↔
        ∃ pre post, s = pre ++ (kw ++ post) ∧
          wordBoundary (lastOfPrefix prev pre) = true ∧ wordEndsOk post = true := by
  intro s
  induction s with
  | nil =>
    intro prev
    rw [show search_word_from kw prev [] = matchWordHere kw prev [] from rfl]
    rw [matchWordHere_iff]
    constructor
    · rintro ⟨post, heq, hb, he⟩
      exact ⟨[], post, by simpa using heq, by simpa [lastOfPrefix] using hb, he⟩
    · rintro ⟨pre, post, heq, hb, he⟩
      have hpre : pre = [] := by
        rcases List.append_eq_nil.mp heq.symm with ⟨h1, _⟩
        exact h1
      subst hpre
      simp only [List.nil_append] at heq
      exact ⟨post, heq, by simpa [lastOfPrefix] using hb, he⟩
  | cons c rest ih =>
    intro prev
    rw [show search_word_from kw prev (c :: rest) =
      (matchWordHere kw prev (c :: rest) || search_word_from kw (some c) rest) from rfl]
    rw [Bool.or_eq_true, matchWordHere_iff, ih (some c)]
    constructor
    · rintro (⟨post, heq, hb, he⟩ | ⟨pre, post, heq, hb, he⟩)
      · exact ⟨[], post, by simpa using heq, by simpa [lastOfPrefix] using hb, he⟩
      · refine ⟨c :: pre, post, by simp [heq], ?_, he⟩
        rw [lastOfPrefix_cons]
        exact hb
    · rintro ⟨pre, post, heq, hb, he⟩
      cases pre with
      | nil =>
        left
        simp only [List.nil_append] at heq
        exact ⟨post, heq, by simpa [lastOfPrefix] using hb, he⟩
      | cons c2 pre2 =>
        right
        simp only [List.cons_append] at heq
        injection heq with hc heq2
        subst hc
        refine ⟨pre2, post, heq2, ?_, he⟩
        rw [lastOfPrefix_cons] at hb
        exact hb

theorem search_word_iff (s kw : List Char) :
    search_word s kw = true ↔ WordOccursIn s kw := by
  unfold search_word WordOccursIn
  rw [search_word_from_iff]
  constructor
  · rintro ⟨pre, post, heq, hb, he⟩
    refine ⟨pre, post, by simpa [List.append_assoc] using heq, ?_, he⟩
    unfold lastOfPrefix at hb
    rcases hg : pre.getLast? with _ | d <;> rw [hg] at hb <;> simpa [wordBoundary] using hb
  · rintro ⟨pre, post, heq, hb, he⟩
    refine ⟨pre, post, by simpa [List.append_assoc] using heq, ?_, he⟩
    unfold lastOfPrefix
    rcases hg : pre.getLast? with _ | d <;> simpa [wordBoundary, hg] using hb

theorem find?_eq_some_first {α : Type} (p : α → Bool) :
    ∀ (l : List α) (a : α), l.find? p = some a ↔
      p a = true ∧ ∃ l1 l2, l = l1 ++ a :: l2 ∧ ∀ x ∈ l1, p x = false := by
  intro l
  induction l with
  | nil => intro a; simp [List.find?]
  | cons c rest ih =>
    intro a
    rcases hc : p c with _ | _
    · rw [List.find?_cons_of_neg _ (by simp [hc]), ih a]
      constructor
      · rintro ⟨hp, l1, l2, heq, hall⟩
        exact ⟨hp, c :: l1, l2, by simp [heq], by
          intro x hx
          rcases List.mem_cons.mp hx with h1 | h1
          · subst h1; exact hc
          · exact hall x h1⟩
      · rintro ⟨hp, l1, l2, heq, hall⟩
        cases l1 with
        | nil =>
          simp at heq
          obtain ⟨h1, h2⟩ := heq
          subst h1
          rw [hp] at hc
          exact Bool.noConfusion hc
        | cons c2 t =>
          simp only [List.cons_append] at heq
          injection heq with hc2 heq2
          subst hc2
          exact ⟨hp, t, l2, heq2, fun x hx => hall x (by simp [hx])⟩
    · rw [List.find?_cons_of_pos _ (by simp [hc])]
      constructor
      · intro h
        injection h with h
        subst h
        exact ⟨hc, [], rest, rfl, by simp⟩
      · rintro ⟨hp, l1, l2, heq, hall⟩
        cases l1 with
        | nil =>
          simp at heq
          obtain ⟨h1, _⟩ := heq
          rw [h1]
        | cons c2 t =>
          simp only [List.cons_append] at heq
          injection heq with hc2 heq2
          subst hc2
          have := hall c (by simp)
          rw [this] at hc
          exact Bool.noConfusion hc

/-- C1 counterexample: DELETE stands on the line after a line comment, hence outside
every literal and comment when line comments end at their newline; the validator
nevertheless passes, because whitespace collapsing removes the newline before
comment stripping, so the line comment swallows the rest of the query. -/
theorem C1_counterexample :
    keywordOutsideLiterals "SELECT * FROM t -- c\nDELETE FROM t" "DELETE" = true ∧
    forbidden_keyword_validate "SELECT * FROM t -- c\nDELETE FROM t" =
      { is_valid := true, error_message := "" } :=
  ⟨by decide, by decide⟩

/-- C1 amended: the forbidden-keyword validator passes exactly when no deny-listed
keyword occurs as a whole word in the upper-cased normalized query — normalization
collapses whitespace before stripping comments and literals, so a line comment
extends to the end of the query and comments are stripped before literals — and it
fails naming the first keyword, in deny-list order, that does occur; a longer word
such as UPDATED underscore AT does not trigger UPDATE, and a keyword inside an
intact literal or comment is stripped and does not trigger. -/
theorem C1_forbidden_keyword_on_normalized :
    (∀ query : String,
      (forbidden_keyword_validate query).is_valid = true ↔
        ∀ kw ∈ FORBIDDEN_KEYWORDS,
          ¬ WordOccursIn (pyUpper (normalize_query query)).data kw.data) ∧
    (∀ (query kw : String) (l1 l2 : List String),
      FORBIDDEN_KEYWORDS = l1 ++ kw :: l2 →
      (∀ k2 ∈ l1, ¬ WordOccursIn (pyUpper (normalize_query query)).data k2.data) →
      WordOccursIn (pyUpper (normalize_query query)).data kw.data →
      forbidden_keyword_validate query =
        { is_valid := false, error_message := forbiddenMessage kw }) ∧
    forbidden_keyword_validate "SELECT UPDATED_AT FROM t" =
      { is_valid := true, error_message := "" } ∧
    forbidden_keyword_validate
        ("SELECT * FROM t WHERE name = " ++ squoteStr ++ "DELETE" ++ squoteStr) =
      { is_valid := true, error_message := "" } ∧
    forbidden_keyword_validate "DELETE FROM t" =
      { is_valid := false, error_message := forbiddenMessage "DELETE" } := by
  refine ⟨?_, ?_, by decide, by decide, by decide⟩
  · intro query
    unfold forbidden_keyword_validate
    rcases hf : FORBIDDEN_KEYWORDS.find?
        (fun kw => search_word (pyUpper (normalize_query query)).data kw.data) with _ | kw
    · rw [hf]
      rw [List.find?_eq_none] at hf
      constructor
      · intro _ kw hkw hocc
        exact hf kw hkw ((search_word_iff _ _).mpr hocc)
      · intro _
        rfl
    · rw [hf]
      have hp := List.find?_some hf
      have hmem := List.mem_of_find?_eq_some hf
      constructor
      · intro hfalse
        exact Bool.noConfusion hfalse
      · intro hall
        exact absurd ((search_word_iff _ _).mp hp) (hall kw hmem)
  · intro query kw l1 l2 hdec hl1 hocc
    unfold forbidden_keyword_validate
    have hf : FORBIDDEN_KEYWORDS.find?
        (fun k => search_word (pyUpper (normalize_query query)).data k.data) = some kw := by
      rw [find?_eq_some_first]
      refine ⟨(search_word_iff _ _).mpr hocc, l1, l2, hdec, ?_⟩
      intro x hx
      rcases hb : search_word (pyUpper (normalize_query query)).data x.data with _ | _
      · rfl
      · exact absurd ((search_word_iff _ _).mp hb) (hl1 x hx)
    rw [hf]

theorem firstDenied_none_iff (cfg : AccessConfig) :
    ∀ ts : List String, firstDenied cfg ts = none ↔
      ∀ t ∈ ts, is_table_allowed cfg t = true := by
  intro ts
  induction ts with
  | nil => simp [firstDenied]
  | cons t rest ih =>
    unfold firstDenied
    rcases ha : is_table_allowed cfg t with _ | _
    · simp [ha]
    · simp [ha, ih]

theorem firstDenied_some (cfg : AccessConfig) :
    ∀ (ts : List String) (t : String), firstDenied cfg ts = some t →
      ∃ l1 l2, ts = l1 ++ t :: l2 ∧ is_table_allowed cfg t = false ∧
        ∀ t2 ∈ l1, is_table_allowed cfg t2 = true := by
  intro ts
  induction ts with
  | nil => intro t h; simp [firstDenied] at h
  | cons t0 rest ih =>
    intro t h
    unfold firstDenied at h
    rcases ha : is_table_allowed cfg t0 with _ | _
    · rw [ha] at h
      simp at h
      subst h
      exact ⟨[], rest, rfl, ha, by simp⟩
    · rw [ha] at h
      simp at h
      obtain ⟨l1, l2, heq, hd, hall⟩ := ih t h
      refine ⟨t0 :: l1, l2, by simp [heq], hd, ?_⟩
      intro t2 ht2
      rcases List.mem_cons.mp ht2 with h1 | h1
      · subst h1; exact ha
      · exact hall t2 h1

/-- C4 counterexample: in the query select x underscore from t, neither FROM nor
JOIN occurs as a whole word, so the claim says no table is extracted and validation
passes under every policy; the extraction regex matches the keyword as a substring
of x underscore from, extracts t, and validation fails naming t under the empty
policy. -/
theorem C4_counterexample :
    search_word (pyLower "select x_from t").data "from".data = false ∧
    search_word (pyLower "select x_from t").data "join".data = false ∧
    validate_query_tables ⟨[], [], []⟩ "select x_from t" =
      Except.error (accessDeniedMessage "t") :=
  ⟨by decide, by decide, by rfl⟩

/-- C4 amended: table validation passes exactly when every extracted table is
allowed, and a failure names the first extracted table that is denied, checking no
further tables; extraction scans the lower-cased query for FROM or JOIN as a
substring (no word boundary, so x underscore from also triggers), takes the
following whitespace-separated token of word characters, hyphens and dots, and
strips wrapping backticks or double quotes. -/
theorem C4_extract_and_fail_fast :
    (∀ (cfg : AccessConfig) (query : String),
      validate_query_tables cfg query = Except.ok () ↔
        ∀ t ∈ extract_tables_from_query query, is_table_allowed cfg t = true) ∧
    (∀ (cfg : AccessConfig) (query e : String),
      validate_query_tables cfg query = Except.error e →
        ∃ t l1 l2, e = accessDeniedMessage t ∧
          extract_tables_from_query query = l1 ++ t :: l2 ∧
          is_table_allowed cfg t = false ∧
          ∀ t2 ∈ l1, is_table_allowed cfg t2 = true) ∧
    extract_tables_from_query "SELECT * FROM `proj-x.ds.T1` JOIN ds2.t2 ON a=b" =
      ["proj-x.ds.t1", "ds2.t2"] ∧
    extract_tables_from_query "select x_from t" = ["t"] ∧
    extract_tables_from_query "SELECT 1" = [] := by
  refine ⟨?_, ?_, by decide, by decide, by decide⟩
  · intro cfg query
    unfold validate_query_tables
    rcases hf : firstDenied cfg (extract_tables_from_query query) with _ | t
    · constructor
      · intro _
        exact (firstDenied_none_iff cfg _).mp hf
      · intro _
        rfl
    · obtain ⟨l1, l2, heq, hd, _⟩ := firstDenied_some cfg _ t hf
      constructor
      · intro hcontra
        exact Except.noConfusion hcontra
      · intro hall
        rw [hall t (by rw [heq]; simp)] at hd
        exact Bool.noConfusion hd
  · intro cfg query e h
    unfold validate_query_tables at h
    rcases hf : firstDenied cfg (extract_tables_from_query query) with _ | t
    · rw [hf] at h
      exact Except.noConfusion h
    · rw [hf] at h
      injection h with h
      obtain ⟨l1, l2, heq, hd, hall⟩ := firstDenied_some cfg _ t hf
      exact ⟨t, l1, l2, h.symm, heq, hd, hall⟩
